import Mathlib

/-
Verification of git-fixup (ohmu/git-crust, src/git-fixup.py).

The script is shallowly embedded: the external git binary is modelled as a
pure oracle mapping an argument vector to an exit code and the captured
stdout/stderr text; every routine of the script returns a record holding the
list of git invocations it issued, the lines it printed, and either its value
or the Python exception it raised.  Python string primitives used by the
script (splitlines, split with maxsplit 1, startswith, replace) are embedded
over lists of characters.
-/

set_option autoImplicit false

namespace GitFixup

/-- Embedding of s.startswith(pre): the first argument is the string data,
the second the pattern data. -/
def startsWithList : List Char → List Char → Bool
  | _, [] => true
  | [], _ :: _ => false
  | c :: cs, p :: ps => c = p && startsWithList cs ps

/-- Embedding of Python str.startswith. -/
def pyStartswith (s pre : String) : Bool :=
  startsWithList s.data pre.data

/-- If the pattern is a prefix of the string, returns the remainder after the
pattern; otherwise none. -/
def dropPre : List Char → List Char → Option (List Char)
  | [], s => some s
  | _ :: _, [] => none
  | p :: ps, c :: cs => if c = p then dropPre ps cs else none

/-- Fuel-driven scan replacing every non-overlapping occurrence of the
(nonempty) pattern p0 :: ps by repl, left to right, as Python str.replace
does.  The fuel is the length of the scanned list. -/
def replaceFuel (p0 : Char) (ps repl : List Char) : Nat → List Char → List Char
  | 0, s => s
  | _ + 1, [] => []
  | n + 1, c :: rest =>
    match dropPre (p0 :: ps) (c :: rest) with
    | some rest2 => repl ++ replaceFuel p0 ps repl n rest2
    | none => c :: replaceFuel p0 ps repl n rest

/-- Embedding of Python s.replace(pat, repl): replaces every non-overlapping
occurrence of pat in s, scanning left to right. -/
def pyReplace (s pat repl : String) : String :=
  match pat.data with
  | [] => s
  | p0 :: ps => { data := replaceFuel p0 ps repl.data s.data.length s.data }

/-- Helper for splitlines: accumulates the current line (reversed). -/
def splitlinesAux (acc : List Char) : List Char → List String
  | [] => if acc.isEmpty then [] else [{ data := acc.reverse }]
  | c :: rest =>
    if c = '\n' then { data := acc.reverse : String } :: splitlinesAux [] rest
    else splitlinesAux (c :: acc) rest

/-- Embedding of Python str.splitlines for newline-separated text: a final
chunk after the last newline is kept only when nonempty. -/
def splitlines (s : String) : List String :=
  splitlinesAux [] s.data

/-- Splits a character list at the first space, if any. -/
def breakAtSpace : List Char → Option (List Char × List Char)
  | [] => none
  | c :: rest =>
    if c = ' ' then some ([], rest)
    else (breakAtSpace rest).map (fun p => (c :: p.1, p.2))

/-- Embedding of Python s.split(" ", 1): the part before the first space and,
when a space exists, the part after it.  A none second component corresponds
to the one-element list Python returns for a string without spaces. -/
def splitOnce (s : String) : String × Option String :=
  match breakAtSpace s.data with
  | none => (s, none)
  | some (a, b) => ({ data := a }, some { data := b })

/-- Adds an element to a list treated as a Python set: no-op when already
present, appended otherwise. -/
def setAdd (xs : List String) (x : String) : List String :=
  if x ∈ xs then xs else xs ++ [x]

/-- Embedding of changes.setdefault(k, set()).add(f) on a dict modelled as an
association list in insertion order. -/
def setdefaultAdd : List (String × List String) → String → String → List (String × List String)
  | [], k, f => [(k, [f])]
  | (k', v) :: rest, k, f =>
    if k' = k then (k', setAdd v f) :: rest
    else (k', v) :: setdefaultAdd rest k f

/-- Embedding of d[k] = v on a dict modelled as an association list in
insertion order: overwrites in place or appends. -/
def assocSet : List (String × String) → String → String → List (String × String)
  | [], k, v => [(k, v)]
  | (k', v') :: rest, k, v =>
    if k' = k then (k, v) :: rest
    else (k', v') :: assocSet rest k v

/-- Embedding of dict lookup d[k] on an association list. -/
def assocGet {α : Type} : List (String × α) → String → Option α
  | [], _ => none
  | (k', v) :: rest, k => if k' = k then some v else assocGet rest k

/-- The Python exceptions the script can raise: its own Error class (with the
formatted message), and the built-in IndexError and ValueError raised by list
indexing and by tuple unpacking of a short list. -/
inductive PyErr where
  | Error (msg : String)
  | IndexError
  | ValueError
deriving DecidableEq

/-- The external git binary, modelled as a pure oracle: an argument vector is
mapped to the process exit code and the text captured from its standard
output and standard error streams.  Purity models a repository that is not
mutated concurrently during one resolution pass. -/
structure GitWorld where
  run : List String → Int × String × String

/-- The observable behaviour of one routine of the script: the git argument
vectors it spawned (in order), the lines it printed to standard output, and
either its return value or the exception it raised. -/
structure Res (α : Type) where
  calls : List (List String)
  output : List String
  result : Except PyErr α

/-- Returns a value, with no subprocess calls and no printing. -/
def Res.pure {α : Type} (a : α) : Res α := ⟨[], [], .ok a⟩

/-- Prints the given lines. -/
def Res.print (lines : List String) : Res Unit := ⟨[], lines, .ok ()⟩

/-- Sequences two effectful steps: an exception in the first aborts the
second, as Python exception propagation does. -/
def Res.bind {α β : Type} (r : Res α) (k : α → Res β) : Res β :=
  match r.result with
  | .error e => ⟨r.calls, r.output, .error e⟩
  | .ok a =>
    let r2 := k a
    ⟨r.calls ++ r2.calls, r.output ++ r2.output, r2.result⟩

/-- The severity-independent message of Fixup.git's Error, embedding the
format string "command {args} failed with exit code {rc}, stdout={out},
stderr={err}" with a simplified repr rendering. -/
def gitFailMsg (args : List String) (rc : Int) (out err : String) : String :=
  "command [" ++ String.intercalate ", " (args.map (fun a => "'" ++ a ++ "'")) ++
  "] failed with exit code " ++ toString rc ++
  ", stdout='" ++ out ++ "', stderr='" ++ err ++ "'"

/-- Embedding of Fixup.git: prepends "git" to the argument vector, runs the
subprocess, raises Error on a non-zero exit code, and otherwise returns the
splitlines of the captured stdout.  When capture is false, the subprocess
output goes to the console instead and the returned list is the splitlines of
the empty string. -/
def Fixup.git (w : GitWorld) (args : List String) (capture : Bool) : Res (List String) :=
  let fullArgs := "git" :: args
  let rce := w.run fullArgs
  if rce.1 = 0 then
    if capture then ⟨[fullArgs], [], .ok (splitlines rce.2.1)⟩
    else ⟨[fullArgs], splitlines rce.2.1, .ok (splitlines "")⟩
  else
    ⟨[fullArgs], if capture then [] else splitlines rce.2.1,
     .error (.Error (gitFailMsg fullArgs rce.1 rce.2.1 rce.2.2))⟩

/-- Embedding of Fixup.changed_files: the paths from git status --porcelain
whose second status column is exactly M. -/
def Fixup.changed_files (w : GitWorld) : Res (List String) :=
  Res.bind (Fixup.git w ["status", "--porcelain"] true) fun lines =>
    Res.pure ((lines.filter (fun l => (l.data.drop 1).take 1 = ['M'])).map
      (fun l => { data := l.data.drop 3 }))

/-- The git log invocation Fixup.fixup issues for one file. -/
def logArgs (f : String) : List String :=
  ["log", "-n", "1", "--oneline", "--decorate=no", "--", f]

/-- One step of Fixup.fixup's grouping loop: runs the single-file log query,
takes line [0] of its output (IndexError when the output is empty), and
unpacks line.split(" ", 1) into (parent, title) (ValueError when the line has
no space). -/
def Fixup.resolveOwner (w : GitWorld) (f : String) : Res (String × String) :=
  Res.bind (Fixup.git w (logArgs f) true) fun lines =>
    match lines with
    | [] => ⟨[], [], .error .IndexError⟩
    | line :: _ =>
      match splitOnce line with
      | (_, none) => ⟨[], [], .error .ValueError⟩
      | (parent, some title) => Res.pure (parent, title)

/-- Embedding of Fixup.fixup's grouping loop: threads the changes dict
(commit id to set of files) and the desc dict (commit id to subject). -/
def Fixup.groupFiles (w : GitWorld) :
    List String → List (String × List String) → List (String × String) →
    Res (List (String × List String) × List (String × String))
  | [], changes, desc => Res.pure (changes, desc)
  | f :: rest, changes, desc =>
    Res.bind (Fixup.resolveOwner w f) fun pt =>
      Fixup.groupFiles w rest (setdefaultAdd changes pt.1 f) (assocSet desc pt.1 pt.2)

/-- Embedding of the inner loop of Fixup.fixup's reporting phase: for each
file of one group, either streams git diff to the console or prints the
indented path. -/
def Fixup.printFiles (w : GitWorld) (diff : Bool) : List String → Res Unit
  | [] => Res.pure ()
  | f :: rest =>
    if diff then
      Res.bind (Fixup.git w ["--no-pager", "diff", f] false) fun lines =>
        Res.bind (Res.print lines) fun _ =>
          Fixup.printFiles w diff rest
    else
      Res.bind (Res.print ["   " ++ f]) fun _ =>
        Fixup.printFiles w diff rest

/-- Embedding of the outer loop of Fixup.fixup's reporting phase: for each
entry of the desc dict, prints the commit id and subject, the group's files,
and a blank separator line. -/
def Fixup.printGroups (w : GitWorld) (changes : List (String × List String)) (diff : Bool) :
    List (String × String) → Res Unit
  | [] => Res.pure ()
  | (cid, title) :: rest =>
    Res.bind (Res.print [cid ++ " " ++ title]) fun _ =>
      Res.bind (Fixup.printFiles w diff ((assocGet changes cid).getD [])) fun _ =>
        Res.bind (Res.print [""]) fun _ =>
          Fixup.printGroups w changes diff rest

/-- Embedding of Fixup.fixup's commit loop: one git commit --fixup (or
--squash) invocation per entry of the changes dict, covering that entry's
files. -/
def Fixup.commitGroups (w : GitWorld) (squash : Bool) :
    List (String × List String) → Res Unit
  | [] => Res.pure ()
  | (cid, fs) :: rest =>
    Res.bind (Fixup.git w (["commit", if squash then "--squash" else "--fixup", cid] ++ fs) false)
      fun _ => Fixup.commitGroups w squash rest

/-- Embedding of Fixup.fixup: group the files by owning commit, print the
report, and, when commit is set, issue one fixup or squash commit per
group. -/
def Fixup.fixup (w : GitWorld) (files : List String) (commit diff squash : Bool) : Res Unit :=
  Res.bind (Fixup.groupFiles w files [] []) fun gd =>
    Res.bind (Fixup.printGroups w gd.1 diff gd.2) fun _ =>
      if commit then Fixup.commitGroups w squash gd.1 else Res.pure ()

/-- The git log invocation Fixup.rebase_all issues. -/
def rebaseLogArgs : List String :=
  ["--no-pager", "log", "-n", "1000", "--oneline", "--decorate=no"]

/-- The set comprehension of Fixup.rebase_all building the pending fixup
subjects: for each (hash, subject) entry whose subject starts with "fixup!"
or "squash!", the subject with every occurrence of "fixup! " and then every
occurrence of "squash! " removed.  The Python set is modelled as a list used
only through membership and emptiness. -/
def pendingTargets (commits : List (String × String)) : List String :=
  (commits.filter (fun e => pyStartswith e.2 "fixup!" || pyStartswith e.2 "squash!")).map
    (fun e => pyReplace (pyReplace e.2 "fixup! " "") "squash! " "")

/-- The message of the Error raised when no target commit is found. -/
def noTargetMsg (fixups : List String) : String :=
  "could not find target for fixup/squashes: " ++
  String.intercalate ", " (fixups.map (fun a => "'" ++ a ++ "'"))

/-- The (hash, subject) pairs among the split history lines that do have a
subject component. -/
def parsedCommits (ls : List String) : List (String × String) :=
  (ls.map splitOnce).filterMap (fun e => e.2.map (fun t => (e.1, t)))

/-- The decision core of Fixup.rebase_all on the parsed history lines: each
line is split once at a space; accessing element [1] of a one-element split
raises IndexError (the comprehension touches e[1] of every entry); an empty
pending set is a no-op (none); no matching target raises Error; otherwise the
rebase argument vector anchored at the oldest matching entry is returned. -/
def Fixup.rebasePlan (ls : List String) : Except PyErr (Option (List String)) :=
  if (ls.map splitOnce).any (fun e => e.2.isNone) then .error .IndexError
  else
    let fixups := pendingTargets (parsedCommits ls)
    if fixups.isEmpty then .ok none
    else
      let parents := (parsedCommits ls).filter (fun e => decide (e.2 ∈ fixups))
      if hp : parents = [] then .error (.Error (noTargetMsg fixups))
      else .ok (some ["rebase", "-i", "--autosquash", (parents.getLast hp).1 ++ "^"])

/-- Embedding of Fixup.rebase_all: reads the last 1000 one-line history
entries and acts on the rebase plan. -/
def Fixup.rebase_all (w : GitWorld) : Res Unit :=
  Res.bind (Fixup.git w rebaseLogArgs true) fun ls =>
    match Fixup.rebasePlan ls with
    | .error e => ⟨[], [], .error e⟩
    | .ok none => Res.pure ()
    | .ok (some cargs) =>
      Res.bind (Fixup.git w cargs false) fun _ => Res.pure ()

/-- The configuration record produced by the option parser. -/
structure Options where
  all : Bool
  diff : Bool
  debug : Bool
  no_commit : Bool
  squash : Bool
  rebase : Bool
deriving DecidableEq

/-- All options unset, as optparse initialises store_true options. -/
def defaultOptions : Options := ⟨false, false, false, false, false, false⟩

/-- Modelling of the optparse run over the process argument vector:
recognised flags set their option, anything else accumulates as a positional
file path. -/
def optparseRun : List String → Options → List String → Options × List String
  | [], opt, pos => (opt, pos.reverse)
  | a :: rest, opt, pos =>
    if a = "-a" ∨ a = "--all" then optparseRun rest { opt with all := true } pos
    else if a = "-d" ∨ a = "--diff" then optparseRun rest { opt with diff := true } pos
    else if a = "-D" ∨ a = "--debug" then optparseRun rest { opt with debug := true } pos
    else if a = "-n" ∨ a = "--no-commit" then optparseRun rest { opt with no_commit := true } pos
    else if a = "-s" ∨ a = "--squash" then optparseRun rest { opt with squash := true } pos
    else if a = "-r" ∨ a = "--rebase" then optparseRun rest { opt with rebase := true } pos
    else optparseRun rest opt (a :: pos)

/-- Embedding of Fixup.parse_args: the args parameter is accepted but unused,
because the source calls parser.parse_args() with no argument, which reads
the process's own argument vector (modelled as procArgs). -/
def Fixup.parse_args (args procArgs : List String) : Options × List String :=
  optparseRun procArgs defaultOptions []

/-- The body of the try block in Fixup.main: the rebase workflow when the
rebase flag is set, otherwise the fixup workflow over the explicit file list
or, when it is empty, over the changed files, with commit mode decided by
not no_commit and (all or a non-empty explicit list). -/
def Fixup.mainBody (w : GitWorld) (opt : Options) (files : List String) : Res Unit :=
  if opt.rebase then Fixup.rebase_all w
  else if files.isEmpty then
    Res.bind (Fixup.changed_files w) fun fl =>
      Fixup.fixup w fl (!opt.no_commit && (opt.all || !files.isEmpty)) opt.diff opt.squash
  else
    Fixup.fixup w files (!opt.no_commit && (opt.all || !files.isEmpty)) opt.diff opt.squash

/-- Embedding of Fixup.main: parses the options, runs the body, and applies
the except Error handler, which prints "ERROR: Error: <message>" and returns
1; any other exception propagates out of main.  A .ok none result is Python's
implicit None return, which sys.exit maps to exit code 0. -/
def Fixup.mainRun (w : GitWorld) (args procArgs : List String) : Res (Option Int) :=
  let p := Fixup.parse_args args procArgs
  let b := Fixup.mainBody w p.1 p.2
  match b.result with
  | .ok _ => ⟨b.calls, b.output, .ok none⟩
  | .error (.Error m) => ⟨b.calls, b.output ++ ["ERROR: Error: " ++ m], .ok (some 1)⟩
  | .error e => ⟨b.calls, b.output, .error e⟩

/-- The argument vector of a call, classified as a commit invocation. -/
def isCommitCall (args : List String) : Bool :=
  args.take 2 = ["git", "commit"]

/-- The argument vector of a call, classified as a rebase invocation. -/
def isRebaseCall (args : List String) : Bool :=
  args.take 2 = ["git", "rebase"]

/-- The git subcommand of a call, skipping the --no-pager switch. -/
def gitVerb (args : List String) : Option String :=
  match args with
  | "git" :: "--no-pager" :: v :: _ => some v
  | "git" :: v :: _ => some v
  | _ => none

/-- A call is read-only when its subcommand is status, log or diff. -/
def isReadCall (args : List String) : Bool :=
  gitVerb args = some "status" || gitVerb args = some "log" || gitVerb args = some "diff"

/-- The file list Fixup.changed_files computes when every call succeeds. -/
def statusFiles (w : GitWorld) : List String :=
  ((splitlines (w.run ["git", "status", "--porcelain"]).2.1).filter
    (fun l => (l.data.drop 1).take 1 = ['M'])).map (fun l => { data := l.data.drop 3 })

/-- The changes dict built by the grouping loop, as a pure fold over the
owner function. -/
def buildChanges (ρ : String → String) (files : List String)
    (init : List (String × List String)) : List (String × List String) :=
  files.foldl (fun m f => setdefaultAdd m (ρ f) f) init

/-- The desc dict built by the grouping loop, as a pure fold over the owner
and title functions. -/
def buildDesc (ρ τ : String → String) (files : List String)
    (init : List (String × String)) : List (String × String) :=
  files.foldl (fun m f => assocSet m (ρ f) (τ f)) init

/-- A repository oracle where every command succeeds with empty output. -/
def emptyWorld : GitWorld := ⟨fun _ => (0, "", "")⟩

/-- A repository oracle where every command fails with exit code 1. -/
def failWorld : GitWorld := ⟨fun _ => (1, "boom", "fatal")⟩

/-- A repository oracle whose recent history is the anchor-selection example:
two pending fixup commits and their two targets, newest first. -/
def anchorWorld : GitWorld :=
  ⟨fun a =>
    if a = "git" :: rebaseLogArgs then (0, "h1 fixup! B\nh2 C\nh3 B\nh4 fixup! A\nh5 A\n", "")
    else (0, "", "")⟩

/-- A repository oracle with a single history entry whose subject starts
with the prefix without the trailing space. -/
def bangNoSpaceWorld : GitWorld :=
  ⟨fun a =>
    if a = "git" :: rebaseLogArgs then (0, "h1 fixup!x\n", "")
    else (0, "", "")⟩

/-- A repository oracle whose history holds two ordinary commits. -/
def plainHistoryWorld : GitWorld :=
  ⟨fun a =>
    if a = "git" :: rebaseLogArgs then (0, "h1 A\nh2 B\n", "")
    else (0, "", "")⟩

/-- A repository oracle with one modified file a.txt owned by commit c1;
every command succeeds. -/
def oneFileWorld : GitWorld :=
  ⟨fun a =>
    (0,
     if a = "git" :: logArgs "a.txt" then "c1 subject\n"
     else if a = ["git", "status", "--porcelain"] then " M a.txt\n"
     else "",
     "")⟩

/-- A repository oracle whose every query prints a single line without any
space character. -/
def noSpaceWorld : GitWorld := ⟨fun _ => (0, "abc\n", "")⟩

section Lemmas

theorem Res.bind_eq_error {α β : Type} (r : Res α) (k : α → Res β) (e : PyErr)
    (h : r.result = .error e) :
    Res.bind r k = ⟨r.calls, r.output, .error e⟩ := by
  simp [Res.bind, h]

theorem Res.bind_eq_ok {α β : Type} (r : Res α) (k : α → Res β) (a : α)
    (h : r.result = .ok a) :
    Res.bind r k = ⟨r.calls ++ (k a).calls, r.output ++ (k a).output, (k a).result⟩ := by
  simp [Res.bind, h]

theorem assocGet_setdefaultAdd (k f k' : String) :
    ∀ m : List (String × List String),
      assocGet (setdefaultAdd m k f) k' =
        if k' = k then some (setAdd ((assocGet m k).getD []) f) else assocGet m k'
  | [] => by
    by_cases h : k' = k
    · subst h; simp [setdefaultAdd, assocGet, setAdd]
    · simp [setdefaultAdd, assocGet, h, Ne.symm h]
  | (k0, v0) :: rest => by
    by_cases h0 : k0 = k
    · subst h0
      by_cases h1 : k' = k0
      · subst h1; simp [setdefaultAdd, assocGet]
      · simp [setdefaultAdd, assocGet, h1, Ne.symm h1]
    · have ih := assocGet_setdefaultAdd k f k' rest
      by_cases h1 : k0 = k'
      · subst h1
        simp [setdefaultAdd, assocGet, h0, Ne.symm h0]
      · simp [setdefaultAdd, assocGet, h0, h1, ih]

theorem keys_setdefaultAdd (k f : String) :
    ∀ m : List (String × List String),
      (setdefaultAdd m k f).map Prod.fst =
        if k ∈ m.map Prod.fst then m.map Prod.fst else m.map Prod.fst ++ [k]
  | [] => by simp [setdefaultAdd]
  | (k0, v0) :: rest => by
    by_cases h0 : k0 = k
    · subst h0
      simp [setdefaultAdd]
    · have ih := keys_setdefaultAdd k f rest
      by_cases h1 : k ∈ rest.map Prod.fst <;>
        simp [setdefaultAdd, h0, h1, Ne.symm h0, ih]

theorem nodup_keys_setdefaultAdd (k f : String) (m : List (String × List String))
    (hm : (m.map Prod.fst).Nodup) :
    ((setdefaultAdd m k f).map Prod.fst).Nodup := by
  rw [keys_setdefaultAdd]
  by_cases h : k ∈ m.map Prod.fst
  · simpa [h] using hm
  · simp only [h, if_false]
    exact hm.append (List.nodup_singleton k) (by simpa using h)

theorem assocGet_isSome_iff_mem_keys {α : Type} (k : String) :
    ∀ m : List (String × α), (assocGet m k).isSome ↔ k ∈ m.map Prod.fst
  | [] => by simp [assocGet]
  | (k0, v0) :: rest => by
    by_cases h0 : k0 = k
    · subst h0; simp [assocGet]
    · simp [assocGet, h0, Ne.symm h0, assocGet_isSome_iff_mem_keys k rest]

theorem assocGet_eq_some_iff_mem {α : Type} (k : String) (v : α) :
    ∀ m : List (String × α), (m.map Prod.fst).Nodup →
      (assocGet m k = some v ↔ (k, v) ∈ m)
  | [], _ => by simp [assocGet]
  | (k0, v0) :: rest, hm => by
    rw [List.map_cons] at hm
    have hm0 : k0 ∉ rest.map Prod.fst := (List.nodup_cons.mp hm).1
    have hmr : (rest.map Prod.fst).Nodup := (List.nodup_cons.mp hm).2
    by_cases h0 : k0 = k
    · subst h0
      simp only [assocGet, if_pos rfl, List.mem_cons]
      constructor
      · rintro h
        left
        simpa using h.symm
      · rintro (h | h)
        · simp [Prod.ext_iff] at h
          simp [h]
        · exact absurd (by simpa using List.mem_map_of_mem Prod.fst h) hm0
    · simp only [assocGet, if_neg h0, List.mem_cons]
      rw [assocGet_eq_some_iff_mem k v rest hmr]
      constructor
      · exact fun h => Or.inr h
      · rintro (h | h)
        · exact absurd (congrArg Prod.fst h).symm h0
        · exact h

theorem mem_setAdd (xs : List String) (x y : String) :
    y ∈ setAdd xs x ↔ y ∈ xs ∨ y = x := by
  by_cases h : x ∈ xs
  · simp only [setAdd, if_pos h]
    constructor
    · exact fun hy => Or.inl hy
    · rintro (hy | hy)
      · exact hy
      · rw [hy]; exact h
  · simp [setAdd, h]

theorem countP_eq_one_of_nodup {α : Type} [DecidableEq α] (a : α) :
    ∀ l : List α, l.Nodup → a ∈ l → l.countP (fun x => decide (x = a)) = 1
  | [], _, ha => absurd ha (List.not_mem_nil a)
  | b :: t, hn, ha => by
    have hbt := List.nodup_cons.mp hn
    by_cases hb : b = a
    · subst hb
      have : t.countP (fun x => decide (x = b)) = 0 := by
        rw [List.countP_eq_zero]
        intro x hx
        simp only [decide_eq_true_eq]
        intro hxa
        exact hbt.1 (hxa ▸ hx)
      simp [List.countP_cons, this]
    · have ha' : a ∈ t := by
        rcases List.mem_cons.mp ha with h | h
        · exact absurd h.symm hb
        · exact h
      have := countP_eq_one_of_nodup a t hbt.2 ha'
      simp [List.countP_cons, this, hb]

theorem git_calls (w : GitWorld) (a : List String) (cap : Bool) :
    (Fixup.git w a cap).calls = [("git" :: a)] := by
  unfold Fixup.git
  by_cases h : (w.run ("git" :: a)).1 = 0 <;> cases cap <;> simp [h]

theorem git_run_ok (w : GitWorld) (a : List String)
    (h0 : (w.run ("git" :: a)).1 = 0) :
    Fixup.git w a true = ⟨[("git" :: a)], [], .ok (splitlines (w.run ("git" :: a)).2.1)⟩ := by
  unfold Fixup.git
  simp [h0]

theorem resolveOwner_empty (w : GitWorld) (f : String)
    (h0 : (w.run ("git" :: logArgs f)).1 = 0)
    (h1 : (w.run ("git" :: logArgs f)).2.1 = "") :
    Fixup.resolveOwner w f = ⟨[("git" :: logArgs f)], [], .error .IndexError⟩ := by
  unfold Fixup.resolveOwner
  rw [git_run_ok w (logArgs f) h0, h1]
  rw [show splitlines "" = ([] : List String) from rfl]
  rw [Res.bind_eq_ok _ _ [] rfl]
  simp

theorem groupFiles_first_error (w : GitWorld) (f : String) (rest : List String)
    (ch : List (String × List String)) (ds : List (String × String)) (e : PyErr)
    (he : (Fixup.resolveOwner w f).result = .error e) :
    Fixup.groupFiles w (f :: rest) ch ds =
      ⟨(Fixup.resolveOwner w f).calls, (Fixup.resolveOwner w f).output, .error e⟩ := by
  rw [Fixup.groupFiles, Res.bind_eq_error _ _ _ he]

theorem bind_pure_calls {α : Type} (r : Res α) :
    (Res.bind r (fun _ => Res.pure ())).calls = r.calls := by
  cases hr : r.result <;> simp [Res.bind, Res.pure, hr]

theorem any_isNone_false (ls : List String)
    (hparse : ∀ l ∈ ls, ((splitOnce l).2).isSome = true) :
    (ls.map splitOnce).any (fun e => e.2.isNone) = false := by
  rw [List.any_eq_false]
  rintro x hx
  obtain ⟨l, hl, rfl⟩ := List.mem_map.mp hx
  have hs := hparse l hl
  cases h2 : (splitOnce l).2 with
  | none => rw [h2] at hs; exact absurd hs (by simp)
  | some t => simp [h2]

theorem pendingTargets_eq_nil (commits : List (String × String))
    (h : ∀ e ∈ commits, pyStartswith e.2 "fixup!" = false ∧ pyStartswith e.2 "squash!" = false) :
    pendingTargets commits = [] := by
  unfold pendingTargets
  rw [List.filter_eq_nil_iff.mpr, List.map_nil]
  intro e he
  simp [(h e he).1, (h e he).2]

theorem mem_bind_calls {α β : Type} (r : Res α) (k : α → Res β) (c : List String)
    (hc : c ∈ (Res.bind r k).calls) :
    c ∈ r.calls ∨ ∃ a, r.result = .ok a ∧ c ∈ (k a).calls := by
  cases hr : r.result with
  | error e =>
    rw [Res.bind_eq_error _ _ _ hr] at hc
    exact Or.inl hc
  | ok a =>
    rw [Res.bind_eq_ok _ _ _ hr] at hc
    rcases List.mem_append.mp hc with h | h
    · exact Or.inl h
    · exact Or.inr ⟨a, rfl, h⟩

theorem resolveOwner_calls (w : GitWorld) (f : String) :
    (Fixup.resolveOwner w f).calls = [("git" :: logArgs f)] := by
  unfold Fixup.resolveOwner
  cases hr : (Fixup.git w (logArgs f) true).result with
  | error e =>
    rw [Res.bind_eq_error _ _ _ hr]
    exact git_calls w (logArgs f) true
  | ok lines =>
    rw [Res.bind_eq_ok _ _ _ hr]
    simp only [git_calls]
    cases lines with
    | nil => simp
    | cons line rest =>
      cases hso : splitOnce line with
      | mk x y => cases y <;> simp [hso, Res.pure]

theorem groupFiles_calls (w : GitWorld) :
    ∀ (files : List String) ch ds c, c ∈ (Fixup.groupFiles w files ch ds).calls →
      ∃ f, c = ("git" :: logArgs f)
  | [], ch, ds, c => by simp [Fixup.groupFiles, Res.pure]
  | f :: rest, ch, ds, c => by
    intro hc
    rw [Fixup.groupFiles] at hc
    rcases mem_bind_calls _ _ _ hc with h | ⟨pt, _, h⟩
    · rw [resolveOwner_calls] at h
      exact ⟨f, by simpa using h⟩
    · exact groupFiles_calls w rest _ _ c h

theorem printFiles_calls (w : GitWorld) (d : Bool) :
    ∀ (fs : List String) c, c ∈ (Fixup.printFiles w d fs).calls →
      ∃ f, c = ["git", "--no-pager", "diff", f]
  | [], c => by simp [Fixup.printFiles, Res.pure]
  | f :: rest, c => by
    intro hc
    cases d with
    | false =>
      rw [Fixup.printFiles, if_neg Bool.false_ne_true] at hc
      rcases mem_bind_calls _ _ _ hc with h | ⟨u, _, h⟩
      · simp [Res.print] at h
      · exact printFiles_calls w false rest c h
    | true =>
      rw [Fixup.printFiles, if_pos rfl] at hc
      rcases mem_bind_calls _ _ _ hc with h | ⟨lines, _, h⟩
      · rw [git_calls] at h
        exact ⟨f, by simpa using h⟩
      · rcases mem_bind_calls _ _ _ h with h2 | ⟨u, _, h2⟩
        · simp [Res.print] at h2
        · exact printFiles_calls w true rest c h2

theorem printGroups_calls (w : GitWorld) (changes : List (String × List String)) (d : Bool) :
    ∀ (ds : List (String × String)) c, c ∈ (Fixup.printGroups w changes d ds).calls →
      ∃ f, c = ["git", "--no-pager", "diff", f]
  | [], c => by simp [Fixup.printGroups, Res.pure]
  | (cid, title) :: rest, c => by
    intro hc
    rw [Fixup.printGroups] at hc
    rcases mem_bind_calls _ _ _ hc with h | ⟨u, _, h⟩
    · simp [Res.print] at h
    · rcases mem_bind_calls _ _ _ h with h2 | ⟨u2, _, h2⟩
      · exact printFiles_calls w d _ c h2
      · rcases mem_bind_calls _ _ _ h2 with h3 | ⟨u3, _, h3⟩
        · simp [Res.print] at h3
        · exact printGroups_calls w changes d rest c h3

theorem git_congr (w w' : GitWorld) (a : List String) (cap : Bool)
    (h : ∀ x, isReadCall x = true → w'.run x = w.run x)
    (ha : isReadCall ("git" :: a) = true) :
    Fixup.git w' a cap = Fixup.git w a cap := by
  simp only [Fixup.git, h ("git" :: a) ha]

theorem resolveOwner_congr (w w' : GitWorld) (f : String)
    (h : ∀ x, isReadCall x = true → w'.run x = w.run x) :
    Fixup.resolveOwner w' f = Fixup.resolveOwner w f := by
  unfold Fixup.resolveOwner
  rw [git_congr w w' (logArgs f) true h rfl]

theorem groupFiles_congr (w w' : GitWorld)
    (h : ∀ x, isReadCall x = true → w'.run x = w.run x) :
    ∀ (files : List String) ch ds,
      Fixup.groupFiles w' files ch ds = Fixup.groupFiles w files ch ds
  | [], _, _ => rfl
  | f :: rest, ch, ds => by
    simp only [Fixup.groupFiles]
    rw [resolveOwner_congr w w' f h]
    congr 1
    funext pt
    exact groupFiles_congr w w' h rest _ _

theorem printFiles_congr (w w' : GitWorld) (d : Bool)
    (h : ∀ x, isReadCall x = true → w'.run x = w.run x) :
    ∀ fs, Fixup.printFiles w' d fs = Fixup.printFiles w d fs
  | [] => rfl
  | f :: rest => by
    cases d with
    | false =>
      rw [Fixup.printFiles, Fixup.printFiles, if_neg Bool.false_ne_true,
          if_neg Bool.false_ne_true]
      congr 1
      funext u
      exact printFiles_congr w w' false h rest
    | true =>
      rw [Fixup.printFiles, Fixup.printFiles, if_pos rfl, if_pos rfl,
          git_congr w w' ["--no-pager", "diff", f] false h rfl]
      congr 1
      funext lines
      congr 1
      funext u
      exact printFiles_congr w w' true h rest

theorem printGroups_congr (w w' : GitWorld) (changes : List (String × List String)) (d : Bool)
    (h : ∀ x, isReadCall x = true → w'.run x = w.run x) :
    ∀ ds, Fixup.printGroups w' changes d ds = Fixup.printGroups w changes d ds
  | [] => rfl
  | (cid, title) :: rest => by
    simp only [Fixup.printGroups]
    congr 1
    funext u
    rw [printFiles_congr w w' d h]
    congr 1
    funext u2
    congr 1
    funext u3
    exact printGroups_congr w w' changes d h rest

theorem fixup_report_congr (w w' : GitWorld) (files : List String) (d sq : Bool)
    (h : ∀ x, isReadCall x = true → w'.run x = w.run x) :
    Fixup.fixup w' files false d sq = Fixup.fixup w files false d sq := by
  unfold Fixup.fixup
  rw [groupFiles_congr w w' h files [] []]
  congr 1
  funext gd
  rw [printGroups_congr w w' gd.1 d h gd.2]
  congr 1

theorem buildChanges_inv (ρ : String → String) :
    ∀ (files seen : List String) (m : List (String × List String)),
      (m.map Prod.fst).Nodup →
      (∀ k v, assocGet m k = some v → ∀ f, f ∈ v ↔ (f ∈ seen ∧ ρ f = k)) →
      (∀ f ∈ seen, (assocGet m (ρ f)).isSome) →
      (((buildChanges ρ files m).map Prod.fst).Nodup ∧
       (∀ k v, assocGet (buildChanges ρ files m) k = some v →
         ∀ f, f ∈ v ↔ ((f ∈ seen ∨ f ∈ files) ∧ ρ f = k)) ∧
       (∀ f, (f ∈ seen ∨ f ∈ files) → (assocGet (buildChanges ρ files m) (ρ f)).isSome))
  | [], seen, m, h1, h2, h3 => by
    refine ⟨h1, ?_, ?_⟩
    · intro k v hget f
      rw [h2 k v hget f]
      simp
    · intro f hf
      rcases hf with hf | hf
      · exact h3 f hf
      · exact absurd hf (List.not_mem_nil f)
  | g :: rest, seen, m, h1, h2, h3 => by
    have key := fun k' => assocGet_setdefaultAdd (ρ g) g k' m
    have H1 : ((setdefaultAdd m (ρ g) g).map Prod.fst).Nodup :=
      nodup_keys_setdefaultAdd _ _ _ h1
    have H2 : ∀ k v, assocGet (setdefaultAdd m (ρ g) g) k = some v →
        ∀ f, f ∈ v ↔ (f ∈ seen ++ [g] ∧ ρ f = k) := by
      intro k v hget f
      rw [key k] at hget
      by_cases hk : k = ρ g
      · rw [if_pos hk] at hget
        have hv : v = setAdd ((assocGet m (ρ g)).getD []) g := (Option.some.inj hget).symm
        subst hv
        rw [mem_setAdd]
        cases hcase : assocGet m (ρ g) with
        | some v0 =>
          simp only [Option.getD_some]
          rw [h2 (ρ g) v0 hcase f]
          subst hk
          constructor
          · rintro (⟨hs, hρ⟩ | rfl)
            · exact ⟨by simp [hs], hρ⟩
            · exact ⟨by simp, rfl⟩
          · rintro ⟨hs, hρ⟩
            rcases List.mem_append.mp hs with hs | hs
            · exact Or.inl ⟨hs, hρ⟩
            · exact Or.inr (by simpa using hs)
        | none =>
          simp only [Option.getD_none, List.not_mem_nil, false_or]
          subst hk
          constructor
          · rintro rfl
            exact ⟨by simp, rfl⟩
          · rintro ⟨hs, hρ⟩
            rcases List.mem_append.mp hs with hs | hs
            · have := h3 f hs
              rw [hρ, hcase] at this
              exact absurd this (by simp)
            · simpa using hs
      · rw [if_neg hk] at hget
        rw [h2 k v hget f]
        constructor
        · rintro ⟨hs, hρ⟩
          exact ⟨by simp [hs], hρ⟩
        · rintro ⟨hs, hρ⟩
          rcases List.mem_append.mp hs with hs | hs
          · exact ⟨hs, hρ⟩
          · have hg : f = g := by simpa using hs
            subst hg
            exact absurd hρ.symm (by simpa using hk)
    have H3 : ∀ f ∈ seen ++ [g], (assocGet (setdefaultAdd m (ρ g) g) (ρ f)).isSome := by
      intro f hf
      rw [key (ρ f)]
      by_cases hk : ρ f = ρ g
      · rw [if_pos hk]; simp
      · rw [if_neg hk]
        rcases List.mem_append.mp hf with hs | hs
        · exact h3 f hs
        · have hg : f = g := by simpa using hs
          subst hg
          exact absurd rfl hk
    have ih := buildChanges_inv ρ rest (seen ++ [g]) (setdefaultAdd m (ρ g) g) H1 H2 H3
    have heq : buildChanges ρ (g :: rest) m = buildChanges ρ rest (setdefaultAdd m (ρ g) g) := by
      simp [buildChanges]
    rw [heq]
    obtain ⟨i1, i2, i3⟩ := ih
    refine ⟨i1, ?_, ?_⟩
    · intro k v hget f
      rw [i2 k v hget f]
      constructor
      · rintro ⟨hs | hs, hρ⟩
        · rcases List.mem_append.mp hs with hs | hs
          · exact ⟨Or.inl hs, hρ⟩
          · exact ⟨Or.inr (by simp [by simpa using hs]), hρ⟩
        · exact ⟨Or.inr (by simp [hs]), hρ⟩
      · rintro ⟨hs | hs, hρ⟩
        · exact ⟨Or.inl (by simp [hs]), hρ⟩
        · rcases List.mem_cons.mp hs with hs | hs
          · exact ⟨Or.inl (by simp [hs]), hρ⟩
          · exact ⟨Or.inr hs, hρ⟩
    · intro f hf
      apply i3 f
      rcases hf with hs | hs
      · exact Or.inl (by simp [hs])
      · rcases List.mem_cons.mp hs with hs | hs
        · exact Or.inl (by simp [hs])
        · exact Or.inr hs

theorem groupFiles_result (w : GitWorld) (ρ τ : String → String) :
    ∀ (files : List String) (ch : List (String × List String)) (ds : List (String × String)),
      (∀ f ∈ files, (Fixup.resolveOwner w f).result = .ok (ρ f, τ f)) →
      (Fixup.groupFiles w files ch ds).result =
        .ok (buildChanges ρ files ch, buildDesc ρ τ files ds)
  | [], ch, ds, _ => by simp [Fixup.groupFiles, Res.pure, buildChanges, buildDesc]
  | f :: rest, ch, ds, H => by
    have hf := H f (List.mem_cons_self f rest)
    have hrest : ∀ g ∈ rest, (Fixup.resolveOwner w g).result = .ok (ρ g, τ g) :=
      fun g hg => H g (List.mem_cons_of_mem f hg)
    rw [Fixup.groupFiles, Res.bind_eq_ok _ _ _ hf]
    have heqc : buildChanges ρ (f :: rest) ch =
        buildChanges ρ rest (setdefaultAdd ch (ρ f) f) := by simp [buildChanges]
    have heqd : buildDesc ρ τ (f :: rest) ds =
        buildDesc ρ τ rest (assocSet ds (ρ f) (τ f)) := by simp [buildDesc]
    rw [heqc, heqd]
    exact groupFiles_result w ρ τ rest _ _ hrest

theorem bind_result_ok {α β : Type} (r : Res α) (k : α → Res β) (a : α)
    (h : r.result = .ok a) : (Res.bind r k).result = (k a).result := by
  rw [Res.bind_eq_ok _ _ _ h]

theorem git_false_result (w : GitWorld) (a : List String)
    (h0 : (w.run ("git" :: a)).1 = 0) :
    (Fixup.git w a false).result = .ok (splitlines "") := by
  unfold Fixup.git
  simp [h0]

theorem printFiles_ok (w : GitWorld) (d : Bool) (hrc : ∀ a, (w.run a).1 = 0) :
    ∀ fs, (Fixup.printFiles w d fs).result = .ok ()
  | [] => rfl
  | f :: rest => by
    cases d with
    | false =>
      rw [Fixup.printFiles, if_neg Bool.false_ne_true,
          bind_result_ok _ _ _ rfl]
      exact printFiles_ok w false hrc rest
    | true =>
      rw [Fixup.printFiles, if_pos rfl,
          bind_result_ok _ _ _ (git_false_result w ["--no-pager", "diff", f] (hrc _))]
      rw [bind_result_ok _ _ _ rfl]
      exact printFiles_ok w true hrc rest

theorem printGroups_ok (w : GitWorld) (changes : List (String × List String)) (d : Bool)
    (hrc : ∀ a, (w.run a).1 = 0) :
    ∀ ds, (Fixup.printGroups w changes d ds).result = .ok ()
  | [] => rfl
  | (cid, title) :: rest => by
    rw [Fixup.printGroups, bind_result_ok _ _ _ rfl,
        bind_result_ok _ _ _ (printFiles_ok w d hrc _),
        bind_result_ok _ _ _ rfl]
    exact printGroups_ok w changes d hrc rest

theorem commitGroups_spec (w : GitWorld) (sq : Bool) (hrc : ∀ a, (w.run a).1 = 0) :
    ∀ G, (Fixup.commitGroups w sq G).result = .ok () ∧
      (Fixup.commitGroups w sq G).calls =
        G.map (fun kv => "git" :: "commit" ::
          (if sq then "--squash" else "--fixup") :: kv.1 :: kv.2)
  | [] => ⟨rfl, rfl⟩
  | (cid, fs) :: rest => by
    rw [Fixup.commitGroups]
    constructor
    · rw [bind_result_ok _ _ _ (git_false_result w _ (hrc _))]
      exact (commitGroups_spec w sq hrc rest).1
    · rw [Res.bind_eq_ok _ _ _ (git_false_result w _ (hrc _))]
      simp only [git_calls]
      rw [(commitGroups_spec w sq hrc rest).2]
      simp [List.cons_append, List.nil_append]

theorem calls_filter_commit_nil (cs : List (List String))
    (h : ∀ c ∈ cs, isCommitCall c = false) : cs.filter isCommitCall = [] :=
  List.filter_eq_nil_iff.mpr (by intro c hc; simp [h c hc])

theorem changed_files_ok (w : GitWorld) (hrc : ∀ a, (w.run a).1 = 0) :
    Fixup.changed_files w = ⟨[["git", "status", "--porcelain"]], [], .ok (statusFiles w)⟩ := by
  unfold Fixup.changed_files
  rw [git_run_ok w ["status", "--porcelain"] (hrc _)]
  rw [Res.bind_eq_ok _ _ _ rfl]
  simp [Res.pure, statusFiles]

theorem fixup_calls_commit_filter (w : GitWorld) (flist : List String) (c d sq : Bool)
    (G : List (String × List String)) (D : List (String × String))
    (hrc : ∀ a, (w.run a).1 = 0)
    (hres : (Fixup.groupFiles w flist [] []).result = .ok (G, D)) :
    (Fixup.fixup w flist c d sq).calls.filter isCommitCall =
      (if c then G.map (fun kv => "git" :: "commit" ::
        (if sq then "--squash" else "--fixup") :: kv.1 :: kv.2) else []) := by
  unfold Fixup.fixup
  rw [Res.bind_eq_ok _ _ _ hres]
  simp only []
  rw [Res.bind_eq_ok _ _ _ (printGroups_ok w G d hrc D)]
  simp only []
  rw [List.filter_append, List.filter_append]
  rw [calls_filter_commit_nil (Fixup.groupFiles w flist [] []).calls (by
    intro c2 hc2
    obtain ⟨f, rfl⟩ := groupFiles_calls w flist [] [] c2 hc2
    rfl)]
  rw [calls_filter_commit_nil (Fixup.printGroups w G d D).calls (by
    intro c2 hc2
    obtain ⟨f, rfl⟩ := printGroups_calls w G d D c2 hc2
    rfl)]
  cases c with
  | false => simp [Res.pure]
  | true =>
    rw [if_pos rfl, if_pos rfl]
    rw [(commitGroups_spec w sq hrc G).2]
    rw [List.filter_eq_self.mpr (by
      intro c2 hc2
      obtain ⟨kv, _, rfl⟩ := List.mem_map.mp hc2
      rfl)]
    simp

end Lemmas

theorem groupFiles_partition (w : GitWorld) (ρ τ : String → String) (files : List String)
    (H : ∀ f ∈ files, (Fixup.resolveOwner w f).result = .ok (ρ f, τ f)) :
    ∃ G D, (Fixup.groupFiles w files [] []).result = .ok (G, D) ∧
      (G.map Prod.fst).Nodup ∧
      (∀ kv ∈ G, ∀ f, f ∈ kv.2 ↔ (f ∈ files ∧ ρ f = kv.1)) ∧
      (∀ f ∈ files, G.countP (fun kv => decide (f ∈ kv.2)) = 1) ∧
      (∀ f, (∃ kv ∈ G, f ∈ kv.2) ↔ f ∈ files) := by
  have hres := groupFiles_result w ρ τ files [] [] H
  obtain ⟨hnd, hget, hsome⟩ :=
    buildChanges_inv ρ files [] [] (by simp) (by simp [assocGet]) (by simp)
  set G := buildChanges ρ files [] with hG
  have hget' : ∀ k v, assocGet G k = some v → ∀ f, f ∈ v ↔ (f ∈ files ∧ ρ f = k) := by
    intro k v hv f
    rw [hget k v hv f]
    simp
  have hsome' : ∀ f ∈ files, (assocGet G (ρ f)).isSome := fun f hf => hsome f (Or.inr hf)
  have hmem : ∀ kv ∈ G, ∀ f, f ∈ kv.2 ↔ (f ∈ files ∧ ρ f = kv.1) := by
    intro kv hkv f
    exact hget' kv.1 kv.2 ((assocGet_eq_some_iff_mem kv.1 kv.2 G hnd).mpr (by simpa using hkv)) f
  refine ⟨G, buildDesc ρ τ files [], hres, hnd, hmem, ?_, ?_⟩
  · intro f hf
    have hcong : G.countP (fun kv => decide (f ∈ kv.2)) =
        G.countP (fun kv => decide (kv.1 = ρ f)) := by
      apply List.countP_congr
      intro kv hkv
      have hiff := hmem kv hkv f
      by_cases hk : kv.1 = ρ f
      · simp [hk, hiff, hf]
      · have hnot : f ∉ kv.2 := fun hin => hk ((hiff.mp hin).2.symm)
        simp [hk, hnot]
    rw [hcong]
    have hmap : G.countP (fun kv => decide (kv.1 = ρ f)) =
        (G.map Prod.fst).countP (fun x => decide (x = ρ f)) := by
      rw [List.countP_map]
      rfl
    rw [hmap]
    apply countP_eq_one_of_nodup _ _ hnd
    rw [← assocGet_isSome_iff_mem_keys]
    exact hsome' f hf
  · intro f
    constructor
    · rintro ⟨kv, hkv, hfkv⟩
      exact ((hmem kv hkv f).mp hfkv).1
    · intro hf
      obtain ⟨v, hv⟩ := Option.isSome_iff_exists.mp (hsome' f hf)
      refine ⟨(ρ f, v), (assocGet_eq_some_iff_mem (ρ f) v G hnd).mp hv, ?_⟩
      rw [hget' (ρ f) v hv f]
      exact ⟨hf, rfl⟩

/-- C1: for every sequence of input file paths whose most-recent-commit
queries all resolve, the grouping phase of Fixup.fixup builds an OwnerGroup
that partitions the input set: the owning-commit keys are distinct, each
bucket holds exactly the input files owned by its key, every input file lies
in exactly one bucket, and the union of all buckets equals the input set. -/
theorem fixup_grouping_partitions (w : GitWorld) (ρ τ : String → String) (files : List String)
    (H : ∀ f ∈ files, (Fixup.resolveOwner w f).result = .ok (ρ f, τ f)) :
    ∃ G D, (Fixup.groupFiles w files [] []).result = .ok (G, D) ∧
      (G.map Prod.fst).Nodup ∧
      (∀ kv ∈ G, ∀ f, f ∈ kv.2 ↔ (f ∈ files ∧ ρ f = kv.1)) ∧
      (∀ f ∈ files, G.countP (fun kv => decide (f ∈ kv.2)) = 1) ∧
      (∀ f, (∃ kv ∈ G, f ∈ kv.2) ↔ f ∈ files) :=
  groupFiles_partition w ρ τ files H

/-- C1 witness: a repository with one modified file a.txt owned by c1. -/
theorem fixup_grouping_partitions_witness :
    (∀ f ∈ ["a.txt"], (Fixup.resolveOwner oneFileWorld f).result =
      .ok ((fun _ => "c1") f, (fun _ => "subject") f)) ∧
    (∃ G D, (Fixup.groupFiles oneFileWorld ["a.txt"] [] []).result = .ok (G, D) ∧
      (G.map Prod.fst).Nodup ∧
      (∀ kv ∈ G, ∀ f, f ∈ kv.2 ↔ (f ∈ ["a.txt"] ∧ (fun _ => "c1") f = kv.1)) ∧
      (∀ f ∈ ["a.txt"], G.countP (fun kv => decide (f ∈ kv.2)) = 1) ∧
      (∀ f, (∃ kv ∈ G, f ∈ kv.2) ↔ f ∈ ["a.txt"])) := by
  have hH : ∀ f ∈ ["a.txt"], (Fixup.resolveOwner oneFileWorld f).result =
      .ok ((fun _ => "c1") f, (fun _ => "subject") f) := by
    intro f hf
    rcases List.mem_singleton.mp hf with rfl
    rfl
  exact ⟨hH, fixup_grouping_partitions oneFileWorld (fun _ => "c1") (fun _ => "subject")
    ["a.txt"] hH⟩

/-- C2 fails on the code: for a subject with a doubled prefix the code strips
every prefix level (str.replace removes all occurrences), not exactly one;
and a subject beginning with fixup! without the trailing space is still
counted as pending, since the code tests startswith without the space. -/
theorem pending_strip_one_level_counterexample :
    pendingTargets [("h1", "fixup! fixup! A")] = ["A"] ∧
    ("A" : String) ≠ "fixup! A" ∧
    pyStartswith "fixup!x" "fixup! " = false ∧
    pyStartswith "fixup!x" "squash! " = false ∧
    pendingTargets [("h1", "fixup!x")] = ["fixup!x"] :=
  ⟨rfl, by decide, rfl, rfl, rfl⟩

/-- C2 amended: an entry is counted as pending exactly when its subject
starts with "fixup!" or "squash!" (no trailing space required), and its
target subject is the subject with every occurrence of "fixup! " removed and
then every occurrence of "squash! " removed (all levels, anywhere in the
subject), not a single leading occurrence. -/
theorem pending_strip_amended (commits : List (String × String)) (s : String) :
    s ∈ pendingTargets commits ↔
      ∃ e ∈ commits,
        (pyStartswith e.2 "fixup!" = true ∨ pyStartswith e.2 "squash!" = true) ∧
        s = pyReplace (pyReplace e.2 "fixup! " "") "squash! " "" := by
  simp only [pendingTargets, List.mem_map, List.mem_filter, Bool.or_eq_true]
  constructor
  · rintro ⟨e, ⟨he, hpre⟩, heq⟩
    exact ⟨e, he, hpre, heq.symm⟩
  · rintro ⟨e, he, hpre, heq⟩
    exact ⟨e, ⟨he, hpre⟩, heq.symm⟩

/-- C3 fails on the code: with a file whose history query returns empty
output, the [0] subscript raises IndexError, which is not the script's Error
class: main re-raises it instead of catching it, prints nothing, and does
not return 1. -/
theorem empty_history_counterexample :
    (Fixup.resolveOwner emptyWorld "a.txt").result = .error PyErr.IndexError ∧
    (Fixup.mainRun emptyWorld [] ["a.txt"]).result = .error PyErr.IndexError ∧
    (Fixup.mainRun emptyWorld [] ["a.txt"]).output = [] ∧
    (∀ m : String, PyErr.IndexError ≠ PyErr.Error m) :=
  ⟨rfl, rfl, rfl, fun _ h => PyErr.noConfusion h⟩

/-- C3 amended: a file whose history query exits 0 with empty output raises
IndexError at the [0] subscript; IndexError is not the script's Error class,
so it escapes main's handler: the invocation aborts with the propagating
exception, without the "ERROR:" report being printed and without the handler
converting it to return value 1. -/
theorem empty_history_escapes (w : GitWorld) (args procArgs : List String)
    (f : String) (rest : List String) (opt : Options)
    (hparse : Fixup.parse_args args procArgs = (opt, f :: rest))
    (hreb : opt.rebase = false)
    (h0 : (w.run ("git" :: logArgs f)).1 = 0)
    (h1 : (w.run ("git" :: logArgs f)).2.1 = "") :
    (Fixup.resolveOwner w f).result = .error PyErr.IndexError ∧
    (Fixup.mainRun w args procArgs).result = .error PyErr.IndexError ∧
    (Fixup.mainRun w args procArgs).output = [] := by
  have hro := resolveOwner_empty w f h0 h1
  have hgf : Fixup.groupFiles w (f :: rest) [] [] =
      ⟨[("git" :: logArgs f)], [], .error .IndexError⟩ := by
    rw [groupFiles_first_error w f rest [] [] .IndexError (by rw [hro]), hro]
  have hfx : ∀ c d s, Fixup.fixup w (f :: rest) c d s =
      ⟨[("git" :: logArgs f)], [], .error .IndexError⟩ := by
    intro c d s
    unfold Fixup.fixup
    rw [Res.bind_eq_error _ _ _ (by rw [hgf]), hgf]
  have hmb : Fixup.mainBody w opt (f :: rest) =
      ⟨[("git" :: logArgs f)], [], .error .IndexError⟩ := by
    unfold Fixup.mainBody
    simp [hreb, hfx]
  have hmr : Fixup.mainRun w args procArgs =
      ⟨[("git" :: logArgs f)], [], .error .IndexError⟩ := by
    unfold Fixup.mainRun
    rw [hparse]
    simp [hmb]
  exact ⟨by rw [hro], by rw [hmr], by rw [hmr]⟩

/-- C4: when the history query succeeds, every history line parses, the
pending set is non-empty, and some entry's own subject is in the pending
set, the Autosquash Rebaser issues exactly one rebase invocation, anchored
at the parent of the oldest matching entry, which is the last one of the
newest-first scanned list. -/
theorem rebase_anchor_oldest (w : GitWorld) (out err : String)
    (parents : List (String × String)) (hne : parents ≠ [])
    (hw : w.run ("git" :: rebaseLogArgs) = (0, out, err))
    (hparse : ∀ l ∈ splitlines out, ((splitOnce l).2).isSome = true)
    (hfix : pendingTargets (parsedCommits (splitlines out)) ≠ [])
    (hpdef : parents = (parsedCommits (splitlines out)).filter
      (fun e => decide (e.2 ∈ pendingTargets (parsedCommits (splitlines out))))) :
    Fixup.rebasePlan (splitlines out) =
      .ok (some ["rebase", "-i", "--autosquash", (parents.getLast hne).1 ++ "^"]) ∧
    (Fixup.rebase_all w).calls =
      [("git" :: rebaseLogArgs),
       ("git" :: ["rebase", "-i", "--autosquash", (parents.getLast hne).1 ++ "^"])] ∧
    (Fixup.rebase_all w).calls.filter isRebaseCall =
      [("git" :: ["rebase", "-i", "--autosquash", (parents.getLast hne).1 ++ "^"])] := by
  subst hpdef
  have hany := any_isNone_false (splitlines out) hparse
  have hfe : (pendingTargets (parsedCommits (splitlines out))).isEmpty = false := by
    cases hh : pendingTargets (parsedCommits (splitlines out))
    · exact absurd hh hfix
    · rfl
  have hplan : Fixup.rebasePlan (splitlines out) =
      .ok (some ["rebase", "-i", "--autosquash",
        (((parsedCommits (splitlines out)).filter
          (fun e => decide (e.2 ∈ pendingTargets (parsedCommits (splitlines out))))).getLast
            hne).1 ++ "^"]) := by
    unfold Fixup.rebasePlan
    rw [hany]
    simp only [Bool.false_eq_true, if_false, hfe]
    rw [dif_neg hne]
  have hgit : Fixup.git w rebaseLogArgs true =
      ⟨[("git" :: rebaseLogArgs)], [], .ok (splitlines out)⟩ := by
    rw [git_run_ok w rebaseLogArgs (by rw [hw]), hw]
  refine ⟨hplan, ?_, ?_⟩
  · unfold Fixup.rebase_all
    rw [hgit, Res.bind_eq_ok _ _ _ rfl]
    simp only []
    rw [hplan]
    simp [bind_pure_calls, git_calls]
  · unfold Fixup.rebase_all
    rw [hgit, Res.bind_eq_ok _ _ _ rfl]
    simp only []
    rw [hplan]
    simp only [bind_pure_calls, git_calls]
    rfl

/-- C4 witness: the anchor-selection example history; the oldest matching
entry is h5 and the anchor is its parent. -/
theorem rebase_anchor_oldest_witness :
    (anchorWorld.run ("git" :: rebaseLogArgs) =
      (0, "h1 fixup! B\nh2 C\nh3 B\nh4 fixup! A\nh5 A\n", "")) ∧
    (([("h3", "B"), ("h5", "A")] : List (String × String)) ≠ []) ∧
    (∀ l ∈ splitlines "h1 fixup! B\nh2 C\nh3 B\nh4 fixup! A\nh5 A\n",
      ((splitOnce l).2).isSome = true) ∧
    (pendingTargets (parsedCommits
      (splitlines "h1 fixup! B\nh2 C\nh3 B\nh4 fixup! A\nh5 A\n")) ≠ []) ∧
    (([("h3", "B"), ("h5", "A")] : List (String × String)) =
      (parsedCommits (splitlines "h1 fixup! B\nh2 C\nh3 B\nh4 fixup! A\nh5 A\n")).filter
        (fun e => decide (e.2 ∈ pendingTargets
          (parsedCommits (splitlines "h1 fixup! B\nh2 C\nh3 B\nh4 fixup! A\nh5 A\n"))))) ∧
    (Fixup.rebase_all anchorWorld).calls =
      [("git" :: rebaseLogArgs), ["git", "rebase", "-i", "--autosquash", "h5^"]] := by
  refine ⟨rfl, by decide, by decide, by decide, by decide, ?_⟩
  exact (rebase_anchor_oldest anchorWorld "h1 fixup! B\nh2 C\nh3 B\nh4 fixup! A\nh5 A\n" ""
    [("h3", "B"), ("h5", "A")] (by decide) rfl (by decide) (by decide) (by decide)).2.1

/-- C5 fails on the code: a one-entry history whose subject is "fixup!x"
contains no subject beginning with "fixup! " or "squash! " (with the
trailing space), yet the code, which tests the prefix without the space,
treats it as pending, finds it as its own target, and issues a rebase
invocation instead of returning without one. -/
theorem rebase_noop_counterexample :
    (∀ e ∈ parsedCommits (splitlines "h1 fixup!x\n"),
       pyStartswith e.2 "fixup! " = false ∧ pyStartswith e.2 "squash! " = false) ∧
    (Fixup.rebase_all bangNoSpaceWorld).calls.filter isRebaseCall =
      [["git", "rebase", "-i", "--autosquash", "h1^"]] ∧
    (Fixup.rebase_all bangNoSpaceWorld).result = .ok () :=
  ⟨by decide, rfl, rfl⟩

/-- C5 amended: when no history subject starts with "fixup!" or "squash!"
(the prefix test the code performs, without the trailing space), the rebase
workflow issues zero rebase invocations; and if additionally every history
line contains a space (so that subject access does not raise IndexError), it
returns successfully. -/
theorem rebase_noop_amended (w : GitWorld) (out err : String)
    (hw : w.run ("git" :: rebaseLogArgs) = (0, out, err))
    (hpre : ∀ e ∈ parsedCommits (splitlines out),
      pyStartswith e.2 "fixup!" = false ∧ pyStartswith e.2 "squash!" = false) :
    (Fixup.rebase_all w).calls.filter isRebaseCall = [] ∧
    ((∀ l ∈ splitlines out, ((splitOnce l).2).isSome = true) →
      (Fixup.rebase_all w).result = .ok ()) := by
  have hpt := pendingTargets_eq_nil _ hpre
  have hgit : Fixup.git w rebaseLogArgs true =
      ⟨[("git" :: rebaseLogArgs)], [], .ok (splitlines out)⟩ := by
    rw [git_run_ok w rebaseLogArgs (by rw [hw]), hw]
  unfold Fixup.rebase_all
  rw [hgit, Res.bind_eq_ok _ _ _ rfl]
  simp only []
  cases hany : ((splitlines out).map splitOnce).any (fun e => e.2.isNone) with
  | true =>
    have hplan : Fixup.rebasePlan (splitlines out) = .error .IndexError := by
      unfold Fixup.rebasePlan
      rw [hany]
      rfl
    rw [hplan]
    constructor
    · rfl
    · intro hall
      exact absurd (any_isNone_false (splitlines out) hall) (by rw [hany]; simp)
  | false =>
    have hplan : Fixup.rebasePlan (splitlines out) = .ok none := by
      unfold Fixup.rebasePlan
      rw [hany]
      simp [hpt]
    rw [hplan]
    exact ⟨rfl, fun _ => rfl⟩

/-- C5 amended witness: a history of two ordinary commits. -/
theorem rebase_noop_amended_witness :
    (plainHistoryWorld.run ("git" :: rebaseLogArgs) = (0, "h1 A\nh2 B\n", "")) ∧
    (∀ e ∈ parsedCommits (splitlines "h1 A\nh2 B\n"),
      pyStartswith e.2 "fixup!" = false ∧ pyStartswith e.2 "squash!" = false) ∧
    (∀ l ∈ splitlines "h1 A\nh2 B\n", ((splitOnce l).2).isSome = true) ∧
    (Fixup.rebase_all plainHistoryWorld).calls.filter isRebaseCall = [] ∧
    (Fixup.rebase_all plainHistoryWorld).result = .ok () := by
  have h1 : plainHistoryWorld.run ("git" :: rebaseLogArgs) = (0, "h1 A\nh2 B\n", "") := rfl
  have h2 : ∀ e ∈ parsedCommits (splitlines "h1 A\nh2 B\n"),
      pyStartswith e.2 "fixup!" = false ∧ pyStartswith e.2 "squash!" = false := by decide
  have h3 : ∀ l ∈ splitlines "h1 A\nh2 B\n", ((splitOnce l).2).isSome = true := by decide
  have hc := rebase_noop_amended plainHistoryWorld "h1 A\nh2 B\n" "" h1 h2
  exact ⟨h1, h2, h3, hc.1, hc.2 h3⟩

/-- C3 amended witness: the empty repository with one positional file. -/
theorem empty_history_escapes_witness :
    Fixup.parse_args [] ["a.txt"] = (defaultOptions, ["a.txt"]) ∧
    defaultOptions.rebase = false ∧
    (emptyWorld.run ("git" :: logArgs "a.txt")).1 = 0 ∧
    (emptyWorld.run ("git" :: logArgs "a.txt")).2.1 = "" ∧
    ((Fixup.resolveOwner emptyWorld "a.txt").result = .error PyErr.IndexError ∧
     (Fixup.mainRun emptyWorld [] ["a.txt"]).result = .error PyErr.IndexError ∧
     (Fixup.mainRun emptyWorld [] ["a.txt"]).output = []) :=
  ⟨rfl, rfl, rfl, rfl,
   empty_history_escapes emptyWorld [] ["a.txt"] "a.txt" [] defaultOptions rfl rfl rfl rfl⟩

/-- C6: an external command exiting non-zero makes Fixup.git raise the Error
exception whose message is built from the invoked arguments, the exit code
and the captured stdout and stderr; the command is run exactly once (one call
in the trace, no retry); and whenever the body of main ends in such an Error,
the single top-level handler prints "ERROR: Error: <message>" and main
returns 1, issuing no further call. -/
theorem git_nonzero_error_handling (w : GitWorld) (a args procArgs : List String)
    (cap : Bool) (m : String)
    (hrc : (w.run ("git" :: a)).1 ≠ 0)
    (hbody : (Fixup.mainBody w (Fixup.parse_args args procArgs).1
      (Fixup.parse_args args procArgs).2).result = .error (.Error m)) :
    (Fixup.git w a cap).result =
      .error (.Error (gitFailMsg ("git" :: a) (w.run ("git" :: a)).1
        (w.run ("git" :: a)).2.1 (w.run ("git" :: a)).2.2)) ∧
    (Fixup.git w a cap).calls = [("git" :: a)] ∧
    (Fixup.mainRun w args procArgs).result = .ok (some 1) ∧
    (Fixup.mainRun w args procArgs).output =
      (Fixup.mainBody w (Fixup.parse_args args procArgs).1
        (Fixup.parse_args args procArgs).2).output ++ ["ERROR: Error: " ++ m] ∧
    (Fixup.mainRun w args procArgs).calls =
      (Fixup.mainBody w (Fixup.parse_args args procArgs).1
        (Fixup.parse_args args procArgs).2).calls := by
  refine ⟨?_, git_calls w a cap, ?_, ?_, ?_⟩
  · unfold Fixup.git
    rw [if_neg hrc]
  · simp [Fixup.mainRun, hbody]
  · simp [Fixup.mainRun, hbody]
  · simp [Fixup.mainRun, hbody]

/-- C6 witness: a repository oracle where every command fails with exit code
1; the status query's failure is reported through the handler. -/
theorem git_nonzero_error_handling_witness :
    ((failWorld.run ("git" :: ["status", "--porcelain"])).1 ≠ 0) ∧
    ((Fixup.mainBody failWorld (Fixup.parse_args [] []).1 (Fixup.parse_args [] []).2).result =
      .error (.Error (gitFailMsg ["git", "status", "--porcelain"] 1 "boom" "fatal"))) ∧
    ((Fixup.mainRun failWorld [] []).result = .ok (some 1) ∧
     (Fixup.mainRun failWorld [] []).output =
      (Fixup.mainBody failWorld (Fixup.parse_args [] []).1 (Fixup.parse_args [] []).2).output ++
        ["ERROR: Error: " ++ gitFailMsg ["git", "status", "--porcelain"] 1 "boom" "fatal"]) := by
  have h1 : (failWorld.run ("git" :: ["status", "--porcelain"])).1 ≠ 0 := by decide
  have h2 : (Fixup.mainBody failWorld (Fixup.parse_args [] []).1
      (Fixup.parse_args [] []).2).result =
      .error (.Error (gitFailMsg ["git", "status", "--porcelain"] 1 "boom" "fatal")) := rfl
  have hc := git_nonzero_error_handling failWorld ["status", "--porcelain"] [] [] true
    (gitFailMsg ["git", "status", "--porcelain"] 1 "boom" "fatal") h1 h2
  exact ⟨h1, h2, hc.2.2.1, hc.2.2.2.1⟩

/-- C9: a history or log line without a space splits into a single element;
in Fixup.fixup the two-variable unpacking of it raises ValueError, and in
Fixup.rebase_all the [1] subject access raises IndexError; neither is the
script's Error class, so main's handler re-raises them unchanged, printing
no report. -/
theorem no_space_line_escapes (w : GitWorld) (l f out err out2 err2 : String)
    (hl : (splitOnce l).2 = none)
    (hf : w.run ("git" :: logArgs f) = (0, out, err))
    (hfl : (splitlines out).head? = some l)
    (hr : w.run ("git" :: rebaseLogArgs) = (0, out2, err2))
    (hl2 : l ∈ splitlines out2) :
    (Fixup.resolveOwner w f).result = .error PyErr.ValueError ∧
    (Fixup.rebase_all w).result = .error PyErr.IndexError ∧
    (∀ a p e,
      (Fixup.mainBody w (Fixup.parse_args a p).1 (Fixup.parse_args a p).2).result = .error e →
      (∀ m, e ≠ PyErr.Error m) →
      ((Fixup.mainRun w a p).result = .error e ∧
       (Fixup.mainRun w a p).output =
         (Fixup.mainBody w (Fixup.parse_args a p).1 (Fixup.parse_args a p).2).output)) := by
  refine ⟨?_, ?_, ?_⟩
  · unfold Fixup.resolveOwner
    rw [git_run_ok w (logArgs f) (by rw [hf]), hf]
    rw [Res.bind_eq_ok _ _ _ rfl]
    obtain ⟨rest, hrest⟩ : ∃ rest, splitlines out = l :: rest := by
      cases hsp : splitlines out with
      | nil => rw [hsp] at hfl; exact absurd hfl (by simp)
      | cons x xs =>
        rw [hsp] at hfl
        exact ⟨xs, by rw [List.head?_cons] at hfl; rw [Option.some.inj hfl]⟩
    rw [hrest]
    simp only []
    cases hso : splitOnce l with
    | mk a b =>
      rw [hso] at hl
      simp only at hl
      subst hl
      rfl
  · unfold Fixup.rebase_all
    rw [git_run_ok w rebaseLogArgs (by rw [hr]), hr]
    rw [Res.bind_eq_ok _ _ _ rfl]
    simp only []
    have hany : ((splitlines out2).map splitOnce).any (fun e => e.2.isNone) = true := by
      rw [List.any_eq_true]
      exact ⟨splitOnce l, List.mem_map_of_mem splitOnce hl2, by rw [hl]; rfl⟩
    have hplan : Fixup.rebasePlan (splitlines out2) = .error .IndexError := by
      unfold Fixup.rebasePlan
      rw [hany]
      rfl
    rw [hplan]
  · intro a p e hbody he
    cases e with
    | Error m => exact absurd rfl (he m)
    | IndexError =>
      constructor
      · simp [Fixup.mainRun, hbody]
      · simp [Fixup.mainRun, hbody]
    | ValueError =>
      constructor
      · simp [Fixup.mainRun, hbody]
      · simp [Fixup.mainRun, hbody]

/-- C9 witness: a repository whose every query prints the spaceless line
abc. -/
theorem no_space_line_escapes_witness :
    ((splitOnce "abc").2 = none) ∧
    (noSpaceWorld.run ("git" :: logArgs "a.txt") = (0, "abc\n", "")) ∧
    ((splitlines "abc\n").head? = some "abc") ∧
    (noSpaceWorld.run ("git" :: rebaseLogArgs) = (0, "abc\n", "")) ∧
    ("abc" ∈ splitlines "abc\n") ∧
    ((Fixup.resolveOwner noSpaceWorld "a.txt").result = .error PyErr.ValueError ∧
     (Fixup.rebase_all noSpaceWorld).result = .error PyErr.IndexError ∧
     (Fixup.mainRun noSpaceWorld [] ["-r"]).result = .error PyErr.IndexError) := by
  have hc := no_space_line_escapes noSpaceWorld "abc" "a.txt" "abc\n" "" "abc\n" ""
    rfl rfl rfl rfl (by decide)
  have hbody : (Fixup.mainBody noSpaceWorld (Fixup.parse_args [] ["-r"]).1
      (Fixup.parse_args [] ["-r"]).2).result = .error PyErr.IndexError := rfl
  exact ⟨rfl, rfl, rfl, rfl, by decide,
    hc.1, hc.2.1, (hc.2.2 [] ["-r"] PyErr.IndexError hbody
      (fun m h => PyErr.noConfusion h)).1⟩

/-- C8: in report mode (commit false) Fixup.fixup issues only read-only
status/log/diff invocations — never a commit or rebase invocation — and its
printed output depends only on the responses to read-only invocations, so
two runs over an unchanged repository (one whose read-only responses agree)
print identical output. -/
theorem report_mode_reads_only (w : GitWorld) (files : List String) (d sq : Bool) :
    (∀ c ∈ (Fixup.fixup w files false d sq).calls,
      isReadCall c = true ∧ isCommitCall c = false ∧ isRebaseCall c = false) ∧
    (∀ w' : GitWorld, (∀ x, isReadCall x = true → w'.run x = w.run x) →
      (Fixup.fixup w' files false d sq).output = (Fixup.fixup w files false d sq).output) := by
  constructor
  · intro c hc
    unfold Fixup.fixup at hc
    rcases mem_bind_calls _ _ _ hc with h | ⟨gd, _, h⟩
    · obtain ⟨f, rfl⟩ := groupFiles_calls w files [] [] c h
      exact ⟨rfl, rfl, rfl⟩
    · rcases mem_bind_calls _ _ _ h with h2 | ⟨u, _, h2⟩
      · obtain ⟨f, rfl⟩ := printGroups_calls w gd.1 d gd.2 c h2
        exact ⟨rfl, rfl, rfl⟩
      · simp [Res.pure] at h2
  · intro w' hw
    rw [fixup_report_congr w w' files d sq hw]

/-- C8 witness: the one-file repository in report mode; its single log query
is a read-only call and a second identical run prints the same report. -/
theorem report_mode_reads_only_witness :
    (("git" :: logArgs "a.txt") ∈ (Fixup.fixup oneFileWorld ["a.txt"] false false false).calls) ∧
    (isReadCall ("git" :: logArgs "a.txt") = true ∧
     isCommitCall ("git" :: logArgs "a.txt") = false ∧
     isRebaseCall ("git" :: logArgs "a.txt") = false) ∧
    ((∀ x, isReadCall x = true → oneFileWorld.run x = oneFileWorld.run x) ∧
     (Fixup.fixup oneFileWorld ["a.txt"] false false false).output =
       (Fixup.fixup oneFileWorld ["a.txt"] false false false).output) := by
  have hmem : ("git" :: logArgs "a.txt") ∈
      (Fixup.fixup oneFileWorld ["a.txt"] false false false).calls := by decide
  exact ⟨hmem, (report_mode_reads_only oneFileWorld ["a.txt"] false false).1 _ hmem,
    fun x _ => rfl,
    (report_mode_reads_only oneFileWorld ["a.txt"] false false).2 oneFileWorld (fun x _ => rfl)⟩

/-- C10: the explicit args parameter of Fixup.main and Fixup.parse_args is
ignored: options and positional files always come from the process's own
argument vector, so two calls with different args but the same process
arguments behave identically. -/
theorem parse_args_ignores_explicit (w : GitWorld) (a1 a2 procArgs : List String) :
    Fixup.parse_args a1 procArgs = Fixup.parse_args a2 procArgs ∧
    Fixup.mainRun w a1 procArgs = Fixup.mainRun w a2 procArgs :=
  ⟨rfl, rfl⟩

/-- C7: when the script reaches the fixup workflow with all commands
succeeding and every owner query resolving, commit mode holds exactly when
no-commit is unset and (all is set or an explicit file list was given): the
commit invocations issued are exactly one per distinct owning-commit key
(the keys are distinct), each targeting that key with fixup (or squash when
the squash flag is set) and covering exactly that key's file set, and none
when commit mode is off. -/
theorem commit_mode_per_group (w : GitWorld) (opt : Options) (files : List String)
    (ρ τ : String → String)
    (hreb : opt.rebase = false)
    (hrc : ∀ a, (w.run a).1 = 0)
    (H : ∀ f ∈ (if files.isEmpty then statusFiles w else files),
      (Fixup.resolveOwner w f).result = .ok (ρ f, τ f)) :
    ∃ G D,
      (Fixup.groupFiles w (if files.isEmpty then statusFiles w else files) [] []).result =
        .ok (G, D) ∧
      (G.map Prod.fst).Nodup ∧
      (∀ kv ∈ G, ∀ f, f ∈ kv.2 ↔
        (f ∈ (if files.isEmpty then statusFiles w else files) ∧ ρ f = kv.1)) ∧
      (Fixup.mainBody w opt files).calls.filter isCommitCall =
        (if (!opt.no_commit && (opt.all || !files.isEmpty)) then
          G.map (fun kv => "git" :: "commit" ::
            (if opt.squash then "--squash" else "--fixup") :: kv.1 :: kv.2)
        else []) := by
  obtain ⟨G, D, hres, hnd, hmem, _, _⟩ :=
    groupFiles_partition w ρ τ (if files.isEmpty then statusFiles w else files) H
  refine ⟨G, D, hres, hnd, hmem, ?_⟩
  unfold Fixup.mainBody
  cases hfe : files.isEmpty with
  | true =>
    rw [hfe] at hres
    simp only [eq_self_iff_true, if_true] at hres
    simp only [hreb, Bool.false_eq_true, if_false, eq_self_iff_true, if_true]
    rw [changed_files_ok w hrc, Res.bind_eq_ok _ _ _ rfl]
    simp only [List.filter_append]
    rw [show List.filter isCommitCall [["git", "status", "--porcelain"]] = [] from rfl]
    rw [fixup_calls_commit_filter w (statusFiles w)
      (!opt.no_commit && (opt.all || !true)) opt.diff opt.squash G D hrc hres]
    simp
  | false =>
    rw [hfe] at hres
    simp only [Bool.false_eq_true, if_false] at hres
    simp only [hreb, Bool.false_eq_true, if_false]
    rw [fixup_calls_commit_filter w files
      (!opt.no_commit && (opt.all || !false)) opt.diff opt.squash G D hrc hres]

/-- C7 witness: one modified file owned by c1, with the all flag set: one
fixup commit invocation covering exactly that file. -/
theorem commit_mode_per_group_witness :
    ((⟨true, false, false, false, false, false⟩ : Options).rebase = false) ∧
    (∀ a, (oneFileWorld.run a).1 = 0) ∧
    (∀ f ∈ (if (["a.txt"] : List String).isEmpty then statusFiles oneFileWorld else ["a.txt"]),
      (Fixup.resolveOwner oneFileWorld f).result =
        .ok ((fun _ => "c1") f, (fun _ => "subject") f)) ∧
    (∃ G D,
      (Fixup.groupFiles oneFileWorld
        (if (["a.txt"] : List String).isEmpty then statusFiles oneFileWorld else ["a.txt"])
        [] []).result = .ok (G, D) ∧
      (G.map Prod.fst).Nodup ∧
      (∀ kv ∈ G, ∀ f, f ∈ kv.2 ↔
        (f ∈ (if (["a.txt"] : List String).isEmpty then statusFiles oneFileWorld
          else ["a.txt"]) ∧ (fun _ => "c1") f = kv.1)) ∧
      (Fixup.mainBody oneFileWorld ⟨true, false, false, false, false, false⟩
        ["a.txt"]).calls.filter isCommitCall =
        (if (!(⟨true, false, false, false, false, false⟩ : Options).no_commit &&
            ((⟨true, false, false, false, false, false⟩ : Options).all ||
              !(["a.txt"] : List String).isEmpty)) then
          G.map (fun kv => "git" :: "commit" ::
            (if (⟨true, false, false, false, false, false⟩ : Options).squash then "--squash"
             else "--fixup") :: kv.1 :: kv.2)
        else [])) := by
  have hrc : ∀ a, (oneFileWorld.run a).1 = 0 := fun _ => rfl
  have hH : ∀ f ∈ (if (["a.txt"] : List String).isEmpty then statusFiles oneFileWorld
      else ["a.txt"]),
      (Fixup.resolveOwner oneFileWorld f).result =
        .ok ((fun _ => "c1") f, (fun _ => "subject") f) := by
    intro f hf
    rcases List.mem_singleton.mp hf with rfl
    rfl
  exact ⟨rfl, hrc, hH,
    commit_mode_per_group oneFileWorld ⟨true, false, false, false, false, false⟩ ["a.txt"]
      (fun _ => "c1") (fun _ => "subject") rfl hrc hH⟩

end GitFixup
